import Mathlib

/-!
# Verification of the Azure DevOps "todos" backend

A shallow embedding, in Lean 4, of the query-construction, result-aggregation
and field-patch reconciliation engine found in `backend/azure_devops_client.py`
and the multi-project aggregation route of `backend/app.py`.

Python strings are modelled as `List Char` (a Python `str` is a sequence of
code points); Python dictionaries carrying heterogeneous JSON values are
modelled by an association list over an inductive value type.  Network calls
are modelled as explicit oracle functions passed to each embedded operation,
returning `Except` to model raised `AzureDevOpsError`s.
-/

namespace AdoSpec

/-- A Python string: a sequence of code points. -/
abbrev Str := List Char

/-- `str.lstrip("\\/")`: drop leading backslash and slash characters. -/
def dropSeps (s : Str) : Str :=
  s.dropWhile (fun c => c = '\\' ∨ c = '/')

/-- A whitespace code point, as stripped by Python `str.strip()`
(ASCII fragment; the repository only handles ASCII paths). -/
def isSpaceChar (c : Char) : Prop := c.isWhitespace

instance (c : Char) : Decidable (isSpaceChar c) := by
  unfold isSpaceChar; infer_instance

/-- `str.strip()`: drop leading and trailing whitespace. -/
def stripWs (s : Str) : Str :=
  ((s.dropWhile fun c => decide (isSpaceChar c)).reverse.dropWhile
    fun c => decide (isSpaceChar c)).reverse

/-- `str.split(sep)` for a one-character separator: split at every
occurrence of `sep`, keeping empty fragments (`"".split(sep) == [""]`). -/
def pySplit (sep : Char) : Str → List Str
  | [] => [[]]
  | c :: rest =>
    match pySplit sep rest with
    | [] => if c = sep then [[], []] else [[c]]
    | h :: t => if c = sep then [] :: h :: t else (c :: h) :: t

/-- `sep.join(parts)`. -/
def pyJoin (sep : Str) : List Str → Str
  | [] => []
  | [x] => x
  | x :: xs => x ++ sep ++ pyJoin sep xs

/-- `str.lower()` (ASCII fragment). -/
def pyLower (s : Str) : Str := s.map Char.toLower

/-- Truthiness of an optional string (`if s:` in Python):
present and non-empty. -/
def strTruthy : Option Str → Prop
  | some s => s ≠ []
  | none => False

instance (s : Option Str) : Decidable (strTruthy s) := by
  unfold strTruthy; cases s <;> infer_instance

/-- A segment whose lower-casing is `"area"` or `"iteration"`
(the test `parts[1].lower() in ("area", "iteration")`). -/
def isContainerSeg (p : Str) : Prop :=
  pyLower p = ("area".toList) ∨ pyLower p = ("iteration".toList)

instance (p : Str) : Decidable (isContainerSeg p) := by
  unfold isContainerSeg; infer_instance

/-- `if len(parts) > 1 and parts[1].lower() in ("area", "iteration"): parts.pop(1)`. -/
def dropContainer : List Str → List Str
  | [] => []
  | [p0] => [p0]
  | p0 :: p1 :: rest =>
    if isContainerSeg p1 then p0 :: rest else p0 :: p1 :: rest

/--
`AzureDevOpsClient._normalize_tree_path`:

    cleaned = path.lstrip("\\/").strip()
    parts = cleaned.split("\\")
    if len(parts) > 1 and parts[1].lower() in ("area", "iteration"):
        parts.pop(1)
    return "\\".join(parts)
-/
def normalizeTreePath (path : Str) : Str :=
  pyJoin ['\\'] (dropContainer (pySplit '\\' (stripWs (dropSeps path))))

/-! ### Facts about the string primitives -/

theorem pySplit_ne_nil (sep : Char) (s : Str) : pySplit sep s ≠ [] := by
  induction s with
  | nil => simp [pySplit]
  | cons c rest ih =>
    cases h : pySplit sep rest with
    | nil => exact absurd h ih
    | cons a t =>
      simp only [pySplit, h]
      split <;> simp

theorem not_sep_of_mem_pySplit {sep : Char} {s seg : Str}
    (hseg : seg ∈ pySplit sep s) : sep ∉ seg := by
  induction s generalizing seg with
  | nil =>
    simp [pySplit] at hseg; subst hseg; simp
  | cons c rest ih =>
    simp only [pySplit] at hseg
    cases h : pySplit sep rest with
    | nil => exact absurd h (pySplit_ne_nil sep rest)
    | cons a t =>
      rw [h] at hseg
      by_cases hc : c = sep
      · simp [hc] at hseg
        rcases hseg with hseg | hseg | hseg
        · subst hseg; simp
        · exact ih (hseg ▸ (h ▸ List.mem_cons_self a t))
        · exact ih (h ▸ List.mem_cons_of_mem a hseg)
      · simp [hc] at hseg
        rcases hseg with hseg | hseg
        · subst hseg
          intro hmem
          rcases List.mem_cons.mp hmem with h1 | h1
          · exact hc h1.symm
          · exact ih (h ▸ List.mem_cons_self a t) h1
        · exact ih (h ▸ List.mem_cons_of_mem a hseg)

theorem mem_of_mem_pySplit {sep : Char} {s seg : Str} {c : Char}
    (hseg : seg ∈ pySplit sep s) (hc : c ∈ seg) : c ∈ s := by
  induction s generalizing seg with
  | nil => simp [pySplit] at hseg; subst hseg; simp at hc
  | cons a rest ih =>
    simp only [pySplit] at hseg
    cases h : pySplit sep rest with
    | nil => exact absurd h (pySplit_ne_nil sep rest)
    | cons b t =>
      rw [h] at hseg
      by_cases ha : a = sep
      · simp [ha] at hseg
        rcases hseg with hseg | hseg | hseg
        · subst hseg; simp at hc
        · exact List.mem_cons_of_mem a (ih (hseg ▸ (h ▸ List.mem_cons_self b t)) hc)
        · exact List.mem_cons_of_mem a (ih (h ▸ List.mem_cons_of_mem b hseg) hc)
      · simp [ha] at hseg
        rcases hseg with hseg | hseg
        · subst hseg
          rcases List.mem_cons.mp hc with h1 | h1
          · exact h1 ▸ List.mem_cons_self a rest
          · exact List.mem_cons_of_mem a (ih (h ▸ List.mem_cons_self b t) h1)
        · exact List.mem_cons_of_mem a (ih (h ▸ List.mem_cons_of_mem b hseg) hc)

theorem pySplit_eq_singleton {sep : Char} {s : Str} (h : sep ∉ s) :
    pySplit sep s = [s] := by
  induction s with
  | nil => simp [pySplit]
  | cons c rest ih =>
    have hc : ¬ c = sep := fun hc => h (hc ▸ List.mem_cons_self c rest)
    have hrest : sep ∉ rest := fun hm => h (List.mem_cons_of_mem c hm)
    simp only [pySplit, ih hrest]
    simp [hc]

theorem pySplit_append_cons {sep : Char} {x t : Str} (hx : sep ∉ x) :
    pySplit sep (x ++ sep :: t) = x :: pySplit sep t := by
  induction x with
  | nil =>
    cases h : pySplit sep t with
    | nil => exact absurd h (pySplit_ne_nil sep t)
    | cons a l =>
      simp only [List.nil_append, pySplit, h]
      simp
  | cons c rest ih =>
    have hc : ¬ c = sep := fun hc => hx (hc ▸ List.mem_cons_self c rest)
    have hrest : sep ∉ rest := fun hm => hx (List.mem_cons_of_mem c hm)
    simp only [List.cons_append, pySplit, List.append_eq]
    rw [ih hrest]
    simp [hc]

theorem pySplit_pyJoin {sep : Char} :
    ∀ {parts : List Str}, parts ≠ [] → (∀ seg ∈ parts, sep ∉ seg) →
      pySplit sep (pyJoin [sep] parts) = parts
  | [], h, _ => absurd rfl h
  | [x], _, hsegs => by
    simp only [pyJoin]
    exact pySplit_eq_singleton (hsegs x (List.mem_singleton_self x))
  | x :: y :: ys, _, hsegs => by
    have hx : sep ∉ x := hsegs x (List.mem_cons_self _ _)
    have hjoin : pyJoin [sep] (x :: y :: ys) = x ++ sep :: pyJoin [sep] (y :: ys) := by
      simp [pyJoin]
    rw [hjoin, pySplit_append_cons hx,
      pySplit_pyJoin (List.cons_ne_nil y ys)
        (fun seg hs => hsegs seg (List.mem_cons_of_mem x hs))]

theorem mem_pyJoin {sep : Str} {c : Char} :
    ∀ {parts : List Str}, c ∈ pyJoin sep parts →
      c ∈ sep ∨ ∃ seg ∈ parts, c ∈ seg
  | [], h => by simp [pyJoin] at h
  | [x], h => by
    simp only [pyJoin] at h
    exact Or.inr ⟨x, List.mem_singleton_self x, h⟩
  | x :: y :: ys, h => by
    simp only [pyJoin, List.append_assoc, List.mem_append] at h
    rcases h with h | h | h
    · exact Or.inr ⟨x, List.mem_cons_self _ _, h⟩
    · exact Or.inl h
    · rcases mem_pyJoin h with h1 | ⟨seg, hs, hc⟩
      · exact Or.inl h1
      · exact Or.inr ⟨seg, List.mem_cons_of_mem x hs, hc⟩

theorem dropWhile_eq_self_of_not {P : Char → Bool} :
    ∀ {s : Str}, (∀ h t, s = h :: t → ¬ P h) → s.dropWhile P = s
  | [], _ => rfl
  | c :: t, h => by
    have := h c t rfl
    simp [List.dropWhile, this]

theorem mem_of_mem_dropWhile {P : Char → Bool} :
    ∀ {s : Str} {c : Char}, c ∈ s.dropWhile P → c ∈ s := by
  intro s
  induction s with
  | nil => intro c h; simp at h
  | cons a rest ih =>
    intro c h
    by_cases ha : P a
    · simp only [List.dropWhile, ha] at h
      exact List.mem_cons_of_mem a (ih h)
    · simp only [List.dropWhile, ha] at h
      simpa using h

theorem head_dropWhile_not {P : Char → Bool} :
    ∀ {s : Str} {h : Char} {t : Str}, s.dropWhile P = h :: t → ¬ P h
  | [], _, _, heq => by simp [List.dropWhile] at heq
  | c :: rest, h, t, heq => by
    by_cases hc : P c
    · simp only [List.dropWhile, hc] at heq
      exact head_dropWhile_not heq
    · simp only [List.dropWhile, hc] at heq
      simp at heq
      exact heq.1 ▸ fun hp => hc (by simpa using hp)

theorem mem_of_mem_stripWs {s : Str} {c : Char} (h : c ∈ stripWs s) : c ∈ s := by
  unfold stripWs at h
  rw [List.mem_reverse] at h
  have h1 := mem_of_mem_dropWhile h
  rw [List.mem_reverse] at h1
  exact mem_of_mem_dropWhile h1

theorem stripWs_eq_self {s : Str} (h : ∀ c ∈ s, ¬ isSpaceChar c) :
    stripWs s = s := by
  unfold stripWs
  have hnot : ∀ (x : Str), (∀ c ∈ x, ¬ isSpaceChar c) →
      (x.dropWhile fun c => decide (isSpaceChar c)) = x := by
    intro x hx
    apply dropWhile_eq_self_of_not
    intro hd tl heq hp
    exact hx hd (heq ▸ List.mem_cons_self hd tl) (by simpa using hp)
  rw [hnot s h, hnot s.reverse (fun c hc => h c (List.mem_reverse.mp hc)),
    List.reverse_reverse]

theorem mem_of_mem_dropSeps {s : Str} {c : Char} (h : c ∈ dropSeps s) : c ∈ s :=
  mem_of_mem_dropWhile h

theorem pySplit_head_cons {sep c : Char} {t : Str} (hc : ¬ c = sep) :
    ∃ s0 rest, pySplit sep (c :: t) = (c :: s0) :: rest := by
  cases h : pySplit sep t with
  | nil => exact absurd h (pySplit_ne_nil sep t)
  | cons a l =>
    refine ⟨a, l, ?_⟩
    simp only [pySplit, h]
    simp [hc]

theorem mem_dropContainer {parts : List Str} {seg : Str}
    (h : seg ∈ dropContainer parts) : seg ∈ parts := by
  match parts with
  | [] => exact h
  | [p0] => exact h
  | p0 :: p1 :: rest =>
    simp only [dropContainer] at h
    by_cases hc : isContainerSeg p1
    · rw [if_pos hc] at h
      rcases List.mem_cons.mp h with h1 | h1
      · exact h1 ▸ List.mem_cons_self _ _
      · exact List.mem_cons_of_mem p0 (List.mem_cons_of_mem p1 h1)
    · rw [if_neg hc] at h
      exact h

theorem dropContainer_head (p0 : Str) (tl : List Str) :
    ∃ tl2, dropContainer (p0 :: tl) = p0 :: tl2 := by
  match tl with
  | [] => exact ⟨[], rfl⟩
  | p1 :: rest =>
    simp only [dropContainer]
    by_cases hc : isContainerSeg p1
    · rw [if_pos hc]; exact ⟨rest, rfl⟩
    · rw [if_neg hc]; exact ⟨p1 :: rest, rfl⟩

/-- If a segment list is already "clean" — nonempty, its first segment's head
is not a separator (or it is the single empty segment), no whitespace, no
backslash inside a segment, and the container-drop step leaves it unchanged —
then `_normalize_tree_path` maps its backslash-join to itself. -/
theorem normalizeTreePath_pyJoin_fixed {parts : List Str}
    (hne : parts ≠ [])
    (hhead : parts = [[]] ∨
      ∃ h0 p0t tl, parts = (h0 :: p0t) :: tl ∧ ¬ (h0 = '\\' ∨ h0 = '/'))
    (hnws : ∀ seg ∈ parts, ∀ c ∈ seg, ¬ isSpaceChar c)
    (hnosep : ∀ seg ∈ parts, '\\' ∉ seg)
    (hfix : dropContainer parts = parts) :
    normalizeTreePath (pyJoin ['\\'] parts) = pyJoin ['\\'] parts := by
  rcases hhead with hp | ⟨h0, p0t, tl, hp, hd0⟩
  · subst hp; decide
  · have hj : ∃ jt, pyJoin ['\\'] parts = h0 :: jt := by
      subst hp
      cases tl with
      | nil => exact ⟨p0t, rfl⟩
      | cons y ys => exact ⟨p0t ++ ['\\'] ++ pyJoin ['\\'] (y :: ys), rfl⟩
    rcases hj with ⟨jt, hj⟩
    have hdrop : dropSeps (pyJoin ['\\'] parts) = pyJoin ['\\'] parts := by
      rw [hj]
      unfold dropSeps
      rw [List.dropWhile_cons]
      simp [hd0]
    have hjw : ∀ c ∈ pyJoin ['\\'] parts, ¬ isSpaceChar c := by
      intro c hc
      rcases mem_pyJoin hc with h1 | ⟨seg, hs, hcs⟩
      · have : c = '\\' := by simpa using h1
        subst this; decide
      · exact hnws seg hs c hcs
    have hstrip : stripWs (pyJoin ['\\'] parts) = pyJoin ['\\'] parts :=
      stripWs_eq_self hjw
    unfold normalizeTreePath
    rw [hdrop, hstrip, pySplit_pyJoin hne hnosep, hfix]

/-- A counterexample input for tree-path idempotence: normalizing
`"a\\Area\\Area"` once gives `"a\\Area"`; normalizing again gives `"a"`. -/
def nonIdempotentPath : Str := "a\\Area\\Area".toList

theorem normalizeTreePath_idempotent_aux {p : Str}
    (hws : ∀ c ∈ p, ¬ isSpaceChar c)
    (hthird : ¬ isContainerSeg
      ((pySplit '\\' (stripWs (dropSeps p))).getD 2 [])) :
    normalizeTreePath (normalizeTreePath p) = normalizeTreePath p := by
  have hdw : ∀ c ∈ dropSeps p, ¬ isSpaceChar c :=
    fun c hc => hws c (mem_of_mem_dropSeps hc)
  have hcleq : stripWs (dropSeps p) = dropSeps p := stripWs_eq_self hdw
  cases hc : dropSeps p with
  | nil =>
    have hp1 : normalizeTreePath p = [] := by
      unfold normalizeTreePath
      rw [hcleq, hc]
      decide
    rw [hp1]
    decide
  | cons a restc =>
    have hhead : ¬ (a = '\\' ∨ a = '/') := by
      have h1 := head_dropWhile_not (show
        (p.dropWhile fun c => decide (c = '\\' ∨ c = '/')) = a :: restc from hc)
      simpa using h1
    have hane : ¬ a = '\\' := fun h => hhead (Or.inl h)
    obtain ⟨s0, tl, hsplit⟩ := pySplit_head_cons (t := restc) hane
    -- the segment list of the first normalization pass
    have hparts : pySplit '\\' (stripWs (dropSeps p)) = (a :: s0) :: tl := by
      rw [hcleq, hc, hsplit]
    obtain ⟨tl2, htl2⟩ := dropContainer_head (a :: s0) tl
    have hmem2 : ∀ seg ∈ dropContainer ((a :: s0) :: tl),
        seg ∈ pySplit '\\' (stripWs (dropSeps p)) := by
      intro seg hs
      rw [hparts]
      exact mem_dropContainer hs
    have hfix : dropContainer (dropContainer ((a :: s0) :: tl)) =
        dropContainer ((a :: s0) :: tl) := by
      cases tl with
      | nil => simp [dropContainer]
      | cons y ys =>
        by_cases hy : isContainerSeg y
        · simp only [dropContainer, if_pos hy]
          cases ys with
          | nil => simp [dropContainer]
          | cons z zs =>
            have hz : ¬ isContainerSeg z := by
              have : (pySplit '\\' (stripWs (dropSeps p))).getD 2 [] = z := by
                rw [hparts]; rfl
              rw [this] at hthird
              exact hthird
            simp [dropContainer, hz]
        · simp [dropContainer, if_neg hy, hy]
    have hgoal1 : normalizeTreePath p =
        pyJoin ['\\'] (dropContainer ((a :: s0) :: tl)) := by
      unfold normalizeTreePath
      rw [hparts]
    rw [hgoal1]
    apply normalizeTreePath_pyJoin_fixed
    · rw [htl2]; exact List.cons_ne_nil _ _
    · right
      exact ⟨a, s0, tl2, htl2, hhead⟩
    · intro seg hs c hcs
      have hsp := hmem2 seg hs
      exact hws c (mem_of_mem_dropSeps
        (hcleq ▸ mem_of_mem_pySplit hsp hcs))
    · intro seg hs
      exact not_sep_of_mem_pySplit (hmem2 seg hs)
    · exact hfix

/-- C5: the claim as written — `normalize(normalize(p)) == normalize(p)` for
every string `p` — fails: for `"a\\Area\\Area"`, the first pass drops the
container segment at index 1 and thereby moves the second `"Area"` into
index 1, so the second pass drops it too. -/
theorem c5_counterexample :
    ¬ (normalizeTreePath (normalizeTreePath nonIdempotentPath) =
      normalizeTreePath nonIdempotentPath) := by
  decide

/-- C5 (amended): tree-path normalization is idempotent for every path `p`
that contains no whitespace and whose cleaned segment list does not have a
container name (`"area"`/`"iteration"`, case-insensitive) as its third
segment.  (In general it is not idempotent: dropping the container segment at
index 1 can expose another container segment, or trailing whitespace, to the
second pass.) -/
theorem c5_normalize_idempotent (p : Str)
    (hws : ∀ c ∈ p, ¬ isSpaceChar c)
    (hthird : ¬ isContainerSeg
      ((pySplit '\\' (stripWs (dropSeps p))).getD 2 [])) :
    normalizeTreePath (normalizeTreePath p) = normalizeTreePath p :=
  normalizeTreePath_idempotent_aux hws hthird

/-- Witness for the amended C5 at the concrete path `"Proj\\Area\\Team"`. -/
theorem c5_normalize_idempotent_witness :
    (∀ c ∈ ("Proj\\Area\\Team".toList), ¬ isSpaceChar c) ∧
    ¬ isContainerSeg
      ((pySplit '\\' (stripWs (dropSeps ("Proj\\Area\\Team".toList)))).getD 2 []) ∧
    normalizeTreePath (normalizeTreePath ("Proj\\Area\\Team".toList)) =
      normalizeTreePath ("Proj\\Area\\Team".toList) :=
  ⟨by decide, by decide,
    c5_normalize_idempotent ("Proj\\Area\\Team".toList) (by decide) (by decide)⟩

/-! ## The patch reconciler (`AzureDevOpsClient._build_patch_body`) -/

/-- A JSON-ish Python value as found in the partial-update dictionaries.
Tag lists arrive as lists of strings, so the `list` constructor carries
strings; numbers in the update payloads are integers. -/
inductive PyVal where
  | none
  | str (s : Str)
  | int (n : Int)
  | list (xs : List Str)
  deriving DecidableEq

/-- A Python dict with string keys, as an association list (keys unique in
practice; lookup takes the first match). -/
abbrev PyDict := List (String × PyVal)

/-- `key in data`. -/
def hasKey (d : PyDict) (k : String) : Prop := ∃ kv ∈ d, kv.1 = k

instance (d : PyDict) (k : String) : Decidable (hasKey d k) := by
  unfold hasKey; infer_instance

/-- `data.get(key)`: the stored value, `None` when absent. -/
def pyGet (d : PyDict) (k : String) : PyVal :=
  match d with
  | [] => .none
  | kv :: rest => if kv.1 = k then kv.2 else pyGet rest k

/-- Python truthiness of a value (`if x:`). -/
def pyTruthy : PyVal → Prop
  | .none => False
  | .str s => s ≠ []
  | .int n => n ≠ 0
  | .list xs => xs ≠ []

instance (v : PyVal) : Decidable (pyTruthy v) := by
  unfold pyTruthy; cases v <;> infer_instance

/-- `str(x)` on the values above (ASCII fragment; `str` of a list is its
Python repr). -/
def pyStrOf : PyVal → Str
  | .none => "None".toList
  | .str s => s
  | .int n => (toString n).toList
  | .list xs =>
    ('[' :: pyJoin (", ".toList) (xs.map fun s => '\'' :: s ++ ['\''])) ++ [']']

/-- `int(s)` for a Python string: optional surrounding whitespace, optional
sign, one or more decimal digits; anything else raises (modelled as `none`).
(Python also accepts digit-group underscores; the repository never passes
such strings.) -/
def digitsToNat (ds : Str) : Option Nat :=
  if ds ≠ [] ∧ ds.all Char.isDigit then
    some (ds.foldl (fun a c => a * 10 + (c.toNat - 48)) 0)
  else
    Option.none

def pyParseInt (s : Str) : Option Int :=
  match stripWs s with
  | '+' :: ds => (digitsToNat ds).map Int.ofNat
  | '-' :: ds => (digitsToNat ds).map (fun n => -(n : Int))
  | ds => (digitsToNat ds).map Int.ofNat

/-- `int(x)` under the reconciler's `try/except (TypeError, ValueError)`:
ints pass through, strings are parsed, anything else fails. -/
def pyToInt : PyVal → Option Int
  | .int n => some n
  | .str s => pyParseInt s
  | _ => Option.none

/-- A JSON-patch path: a field path, a positional relation path
("relations" followed by the index), or the relation append path
("relations" followed by a dash). -/
inductive PatchPath where
  | field (f : String)
  | relation (idx : Nat)
  | relationAppend
  deriving DecidableEq

/-- One JSON-patch operation.  `addParentRelation id` stands for the add
operation at the relation append path whose value is the fixed
Hierarchy-Reverse relation dictionary pointing at work item `id`; the new
parent id is its only varying datum. -/
inductive PatchOp where
  | add (path : PatchPath) (value : PyVal)
  | remove (path : PatchPath)
  | addParentRelation (parentId : Int)
  deriving DecidableEq

/-- The canonical-field → backend-field table, in source order. -/
def fieldMapping : List (String × String) :=
  [("title", "/fields/System.Title"),
   ("description", "/fields/System.Description"),
   ("state", "/fields/System.State"),
   ("priority", "/fields/Microsoft.VSTS.Common.Priority"),
   ("assignedTo", "/fields/System.AssignedTo"),
   ("areaPath", "/fields/System.AreaPath"),
   ("iterationPath", "/fields/System.IterationPath"),
   ("originalEstimate", "/fields/Microsoft.VSTS.Scheduling.OriginalEstimate"),
   ("remaining", "/fields/Microsoft.VSTS.Scheduling.RemainingWork"),
   ("plannedStartDate", "/fields/Microsoft.VSTS.Scheduling.StartDate"),
   ("targetDate", "/fields/Microsoft.VSTS.Scheduling.FinishDate"),
   ("requester", "/fields/Custom.Requester")]

def oePath : String := "/fields/Microsoft.VSTS.Scheduling.OriginalEstimate"

def rwPath : String := "/fields/Microsoft.VSTS.Scheduling.RemainingWork"

/-- The network environment available to `_build_patch_body`:
`hasProject` models `if project:`; `knownPaths true`/`knownPaths false`
model the `list_area_paths`/`list_iteration_paths` calls used to validate
tree paths, `Except.error` modelling a raised exception. -/
structure PatchCtx where
  hasProject : Bool
  knownPaths : Bool → Except Unit (List Str)

/-- The area/iteration branch of the mapping loop: normalize, drop
container-only paths, validate against the live path list if a project is
available. -/
def treePathOp (ctx : PatchCtx) (isArea : Bool) (path : String) (s : Str) :
    Option PatchOp :=
  let v := normalizeTreePath s
  let lower := pyLower v
  if lower = ("area".toList) ∨ lower = ("iteration".toList) ∨
      ("\\area".toList) <:+ lower ∨ ("\\iteration".toList) <:+ lower then
    Option.none
  else if ctx.hasProject then
    match ctx.knownPaths isArea with
    | .ok ps =>
      if v ∈ ps.map normalizeTreePath then some (.add (.field path) (.str v))
      else Option.none
    | .error _ => some (.add (.field path) (.str v))
  else some (.add (.field path) (.str v))

/-- One iteration of the mapping loop (at most one emitted operation). -/
def fieldOp (data : PyDict) (ctx : PatchCtx) (key : String) (path : String) :
    Option PatchOp :=
  if hasKey data key then
    let value := pyGet data key
    if value = .none ∧ ¬ (key = "plannedStartDate" ∨ key = "targetDate") then
      Option.none
    else if key = "areaPath" ∨ key = "iterationPath" then
      match value with
      | .str s => treePathOp ctx (key = "areaPath") path s
      | v => some (.add (.field path) v)
    else some (.add (.field path) value)
  else Option.none

/-- The whole mapping loop. -/
def fieldOps (data : PyDict) (ctx : PatchCtx) : List PatchOp :=
  fieldMapping.filterMap fun kp => fieldOp data ctx kp.1 kp.2

/-- `str(data.get("state") or "").lower()`. -/
def patchStateLower (data : PyDict) : Str :=
  pyLower (pyStrOf
    (if pyTruthy (pyGet data "state") then pyGet data "state" else .str []))

/-- `state in ("closed", "resolved")` on the lower-cased state. -/
def isClosedState (s : Str) : Prop :=
  s = ("closed".toList) ∨ s = ("resolved".toList)

instance (s : Str) : Decidable (isClosedState s) := by
  unfold isClosedState; infer_instance

/-- The two originalEstimate/remaining coupling blocks. -/
def estimateOps (data : PyDict) : List PatchOp :=
  let original := pyGet data "originalEstimate"
  let remaining := pyGet data "remaining"
  let isClosed := isClosedState (patchStateLower data)
  (if original ≠ .none ∧ (¬ hasKey data "remaining" ∨ remaining = .none) ∧
      ¬ isClosed then
    [PatchOp.add (.field rwPath) original]
  else []) ++
  (if remaining ≠ .none ∧ (¬ hasKey data "originalEstimate" ∨ original = .none)
      then
    [PatchOp.add (.field oePath) remaining]
  else [])

/-- The tags block: a list value is joined with `"; "`. -/
def tagOps (data : PyDict) : List PatchOp :=
  if hasKey data "tags" ∧ pyGet data "tags" ≠ .none then
    match pyGet data "tags" with
    | .list xs =>
      [PatchOp.add (.field "/fields/System.Tags") (.str (pyJoin ("; ".toList) xs))]
    | v => [PatchOp.add (.field "/fields/System.Tags") v]
  else []

/-- The parent-relation diffing block.  `eIdx`/`eId` are the pre-read
position and id of the current parent relation (`None` when the pre-read
found none or failed). -/
def parentOps (data : PyDict) (eIdx : Option Nat) (eId : Option Int) :
    List PatchOp :=
  if hasKey data "parentId" then
    let raw := pyGet data "parentId"
    let newParentId := if raw = .none then Option.none else pyToInt raw
    match newParentId with
    | Option.none =>
      match eIdx with
      | some idx => [PatchOp.remove (.relation idx)]
      | Option.none => []
    | some nid =>
      if eId = some nid then []
      else
        (match eIdx with
         | some idx => [PatchOp.remove (.relation idx)]
         | Option.none => []) ++ [PatchOp.addParentRelation nid]
  else []

/-- `AzureDevOpsClient._build_patch_body`: the ordered operation list is the
mapping loop's output followed by the estimate coupling, tags, and parent
blocks, exactly as the Python function appends them. -/
def buildPatchBody (data : PyDict) (ctx : PatchCtx) (eIdx : Option Nat)
    (eId : Option Int) : List PatchOp :=
  fieldOps data ctx ++ estimateOps data ++ tagOps data ++ parentOps data eIdx eId

/-! ### Facts about the patch reconciler -/

theorem pyGet_eq_none_of_not_hasKey {d : PyDict} {k : String}
    (h : ¬ hasKey d k) : pyGet d k = .none := by
  induction d with
  | nil => rfl
  | cons kv rest ih =>
    have hk : ¬ kv.1 = k := fun he => h ⟨kv, List.mem_cons_self kv rest, he⟩
    have hrest : ¬ hasKey rest k := fun ⟨kv2, hm, he⟩ =>
      h ⟨kv2, List.mem_cons_of_mem kv hm, he⟩
    simp only [pyGet, if_neg hk]
    exact ih hrest

theorem hasKey_of_pyGet_ne_none {d : PyDict} {k : String}
    (h : pyGet d k ≠ .none) : hasKey d k := by
  by_contra hk
  exact h (pyGet_eq_none_of_not_hasKey hk)

theorem fieldOp_shape {data : PyDict} {ctx : PatchCtx} {key path : String}
    {op : PatchOp} (h : fieldOp data ctx key path = some op) :
    ∃ u, op = PatchOp.add (.field path) u := by
  unfold fieldOp at h
  by_cases hk : hasKey data key
  · rw [if_pos hk] at h
    by_cases h1 : pyGet data key = .none ∧
        ¬ (key = "plannedStartDate" ∨ key = "targetDate")
    · rw [if_pos h1] at h; exact absurd h (by simp)
    · rw [if_neg h1] at h
      by_cases h2 : key = "areaPath" ∨ key = "iterationPath"
      · rw [if_pos h2] at h
        cases hv : pyGet data key with
        | str s =>
          rw [hv] at h
          dsimp only at h
          simp only [treePathOp] at h
          by_cases h3 : pyLower (normalizeTreePath s) = ("area".toList) ∨
              pyLower (normalizeTreePath s) = ("iteration".toList) ∨
              ("\\area".toList) <:+ pyLower (normalizeTreePath s) ∨
              ("\\iteration".toList) <:+ pyLower (normalizeTreePath s)
          · rw [if_pos h3] at h; exact absurd h (by simp)
          · rw [if_neg h3] at h
            by_cases h4 : ctx.hasProject
            · rw [if_pos h4] at h
              cases h5 : ctx.knownPaths (key = "areaPath") with
              | ok ps =>
                rw [h5] at h
                dsimp only at h
                by_cases h6 : normalizeTreePath s ∈ ps.map normalizeTreePath
                · rw [if_pos h6] at h
                  exact ⟨.str (normalizeTreePath s), (Option.some.inj h).symm⟩
                · rw [if_neg h6] at h; exact absurd h (by simp)
              | error e =>
                rw [h5] at h
                dsimp only at h
                exact ⟨.str (normalizeTreePath s), (Option.some.inj h).symm⟩
            · rw [if_neg h4] at h
              exact ⟨.str (normalizeTreePath s), (Option.some.inj h).symm⟩
        | none =>
          rw [hv] at h
          exact ⟨.none, (Option.some.inj h).symm⟩
        | int n =>
          rw [hv] at h
          exact ⟨.int n, (Option.some.inj h).symm⟩
        | list xs =>
          rw [hv] at h
          exact ⟨.list xs, (Option.some.inj h).symm⟩
      · rw [if_neg h2] at h
        exact ⟨pyGet data key, (Option.some.inj h).symm⟩
  · rw [if_neg hk] at h
    exact absurd h (by simp)

theorem tagOps_shape {data : PyDict} {op : PatchOp} (h : op ∈ tagOps data) :
    ∃ u, op = PatchOp.add (.field "/fields/System.Tags") u := by
  unfold tagOps at h
  by_cases hc : hasKey data "tags" ∧ pyGet data "tags" ≠ .none
  · rw [if_pos hc] at h
    cases hv : pyGet data "tags" with
    | list xs =>
      rw [hv] at h
      exact ⟨_, (List.mem_singleton.mp h)⟩
    | none => rw [hv] at h; exact ⟨_, List.mem_singleton.mp h⟩
    | str s => rw [hv] at h; exact ⟨_, List.mem_singleton.mp h⟩
    | int n => rw [hv] at h; exact ⟨_, List.mem_singleton.mp h⟩
  · rw [if_neg hc] at h
    exact absurd h (by simp)

theorem parentOps_shape {data : PyDict} {eIdx : Option Nat} {eId : Option Int}
    {op : PatchOp} (h : op ∈ parentOps data eIdx eId) :
    (∃ idx, op = PatchOp.remove (.relation idx)) ∨
    (∃ nid, op = PatchOp.addParentRelation nid) := by
  unfold parentOps at h
  by_cases hc : hasKey data "parentId"
  · rw [if_pos hc] at h
    dsimp only at h
    cases hn : (if pyGet data "parentId" = PyVal.none then Option.none
        else pyToInt (pyGet data "parentId")) with
    | none =>
      rw [hn] at h
      dsimp only at h
      cases eIdx with
      | some idx =>
        simp only at h
        exact Or.inl ⟨idx, List.mem_singleton.mp h⟩
      | none => simp only at h; exact absurd h (by simp)
    | some nid =>
      rw [hn] at h
      dsimp only at h
      by_cases he : eId = some nid
      · rw [if_pos he] at h; exact absurd h (by simp)
      · rw [if_neg he] at h
        rcases List.mem_append.mp h with h1 | h1
        · cases eIdx with
          | some idx =>
            simp only at h1
            exact Or.inl ⟨idx, List.mem_singleton.mp h1⟩
          | none => simp only at h1; exact absurd h1 (by simp)
        · exact Or.inr ⟨nid, List.mem_singleton.mp h1⟩
  · rw [if_neg hc] at h
    exact absurd h (by simp)

theorem fieldOp_remaining_none {data : PyDict} {ctx : PatchCtx}
    (hrem : ¬ hasKey data "remaining" ∨ pyGet data "remaining" = .none) :
    fieldOp data ctx "remaining" rwPath = Option.none := by
  unfold fieldOp
  by_cases hk : hasKey data "remaining"
  · rw [if_pos hk]
    have hv : pyGet data "remaining" = .none := by
      rcases hrem with h | h
      · exact absurd hk h
      · exact h
    rw [if_pos ⟨hv, by decide⟩]
  · rw [if_neg hk]

theorem fieldOp_originalEstimate {data : PyDict} {ctx : PatchCtx} {v : PyVal}
    (htouch : pyGet data "originalEstimate" = v) (hv : v ≠ PyVal.none) :
    fieldOp data ctx "originalEstimate" oePath =
      some (PatchOp.add (.field oePath) v) := by
  have hk : hasKey data "originalEstimate" :=
    hasKey_of_pyGet_ne_none (by rw [htouch]; exact hv)
  unfold fieldOp
  rw [if_pos hk]
  dsimp only
  rw [htouch]
  rw [if_neg (fun hcon => hv hcon.1), if_neg (by decide)]

theorem add_rw_not_mem_fieldOps {data : PyDict} {ctx : PatchCtx} {w : PyVal}
    (hrem : ¬ hasKey data "remaining" ∨ pyGet data "remaining" = .none) :
    PatchOp.add (.field rwPath) w ∉ fieldOps data ctx := by
  intro hmem
  obtain ⟨kp, hkp, hf⟩ := List.mem_filterMap.mp hmem
  obtain ⟨u, hu⟩ := fieldOp_shape hf
  have hpath : kp.2 = rwPath := by
    injection hu with h1 h2
    injection h1 with h3
    exact h3.symm
  simp only [fieldMapping, List.mem_cons, List.not_mem_nil, or_false] at hkp
  rcases hkp with h | h | h | h | h | h | h | h | h | h | h | h <;> subst h <;>
    first
    | exact absurd hpath (by decide)
    | (dsimp only at hf
       rw [show ("/fields/Microsoft.VSTS.Scheduling.RemainingWork" : String) =
         rwPath from rfl] at hf
       rw [fieldOp_remaining_none hrem] at hf
       exact absurd hf (by simp))

theorem estimateOps_mirror_rw {data : PyDict} {v : PyVal}
    (htouch : pyGet data "originalEstimate" = v) (hv : v ≠ PyVal.none)
    (hrem : ¬ hasKey data "remaining" ∨ pyGet data "remaining" = .none)
    (hcl : ¬ isClosedState (patchStateLower data)) :
    PatchOp.add (.field rwPath) v ∈ estimateOps data := by
  unfold estimateOps
  dsimp only
  rw [if_pos ⟨by rw [htouch]; exact hv,
    (by
      rcases hrem with h | h
      · exact Or.inl h
      · exact Or.inr h), hcl⟩]
  rw [htouch]
  exact List.mem_append.mpr (Or.inl (List.mem_singleton_self _))

theorem estimateOps_closed_empty {data : PyDict}
    (hrem : ¬ hasKey data "remaining" ∨ pyGet data "remaining" = .none)
    (hcl : isClosedState (patchStateLower data)) :
    estimateOps data = [] := by
  have hremv : pyGet data "remaining" = .none := by
    rcases hrem with h | h
    · exact pyGet_eq_none_of_not_hasKey h
    · exact h
  unfold estimateOps
  dsimp only
  rw [if_neg (fun hcon => hcon.2.2 hcl),
    if_neg (fun hcon => hcon.1 hremv)]
  rfl

/-- The "effective state" used by the spec's claim: the new state if the
patch touches `state`, else the item's current state (which
`_build_patch_body` never receives). -/
def claimedEffectiveState (data : PyDict) (currentState : Str) : Str :=
  if hasKey data "state" then patchStateLower data else pyLower currentState

/-- Claim C2 as the spec states it, quantified over the item's current
state. -/
def estimateMirrorClaim : Prop :=
  ∀ (data : PyDict) (ctx : PatchCtx) (eIdx : Option Nat) (eId : Option Int)
    (currentState : Str) (v : PyVal),
    pyGet data "originalEstimate" = v → v ≠ PyVal.none →
    (¬ hasKey data "remaining" ∨ pyGet data "remaining" = PyVal.none) →
    ((¬ isClosedState (claimedEffectiveState data currentState) →
        PatchOp.add (.field oePath) v ∈ buildPatchBody data ctx eIdx eId ∧
        PatchOp.add (.field rwPath) v ∈ buildPatchBody data ctx eIdx eId) ∧
      (isClosedState (claimedEffectiveState data currentState) →
        PatchOp.add (.field oePath) v ∈ buildPatchBody data ctx eIdx eId ∧
        ∀ w, PatchOp.add (.field rwPath) w ∉ buildPatchBody data ctx eIdx eId))

/-- C2: the claim as stated is false.  The reconciler computes the closed
test from `data.get("state")` alone; when the patch does not touch `state`
and the item's current state is `"Closed"`, the effective state of the claim
is closed, yet `{originalEstimate: 8}` still mirrors 8 into remaining. -/
theorem c2_counterexample : ¬ estimateMirrorClaim := by
  intro h
  have h2 := ((h [("originalEstimate", .int 8)] ⟨false, fun _ => .error ()⟩
      Option.none Option.none ("Closed".toList) (.int 8) rfl (by decide)
      (by decide)).2 (by decide)).2 (.int 8)
  exact h2 (by decide)

/-- C2 (amended): the closed-state test uses only the state carried in the
patch itself (`str(data.get("state") or "").lower()`); an untouched `state`
counts as non-closed regardless of the item's current state.  With that
effective state: if `originalEstimate` is touched with a non-null value and
`remaining` is untouched or null, a non-closed patch state yields operations
setting both fields to the value, and a closed patch state yields the
originalEstimate operation and no RemainingWork operation at all. -/
theorem c2_estimate_mirroring (data : PyDict) (ctx : PatchCtx)
    (eIdx : Option Nat) (eId : Option Int) (v : PyVal)
    (htouch : pyGet data "originalEstimate" = v) (hv : v ≠ PyVal.none)
    (hrem : ¬ hasKey data "remaining" ∨ pyGet data "remaining" = PyVal.none) :
    (¬ isClosedState (patchStateLower data) →
      PatchOp.add (.field oePath) v ∈ buildPatchBody data ctx eIdx eId ∧
      PatchOp.add (.field rwPath) v ∈ buildPatchBody data ctx eIdx eId) ∧
    (isClosedState (patchStateLower data) →
      PatchOp.add (.field oePath) v ∈ buildPatchBody data ctx eIdx eId ∧
      ∀ w, PatchOp.add (.field rwPath) w ∉ buildPatchBody data ctx eIdx eId) := by
  have hoe : PatchOp.add (.field oePath) v ∈ buildPatchBody data ctx eIdx eId := by
    unfold buildPatchBody
    refine List.mem_append.mpr (Or.inl (List.mem_append.mpr (Or.inl
      (List.mem_append.mpr (Or.inl ?_)))))
    refine List.mem_filterMap.mpr ⟨("originalEstimate", oePath), ?_,
      fieldOp_originalEstimate htouch hv⟩
    decide
  constructor
  · intro hcl
    refine ⟨hoe, ?_⟩
    unfold buildPatchBody
    exact List.mem_append.mpr (Or.inl (List.mem_append.mpr (Or.inl
      (List.mem_append.mpr (Or.inr
        (estimateOps_mirror_rw htouch hv hrem hcl))))))
  · intro hcl
    refine ⟨hoe, ?_⟩
    intro w hw
    unfold buildPatchBody at hw
    rcases List.mem_append.mp hw with h1 | h1
    · rcases List.mem_append.mp h1 with h2 | h2
      · rcases List.mem_append.mp h2 with h3 | h3
        · exact add_rw_not_mem_fieldOps hrem h3
        · rw [estimateOps_closed_empty hrem hcl] at h3
          simp at h3
      · obtain ⟨u, hu⟩ := tagOps_shape h2
        injection hu with hp hv2
        injection hp with hs
        exact absurd hs (by decide)
    · rcases parentOps_shape h1 with ⟨i, hi⟩ | ⟨n, hn⟩
      · exact absurd hi (by simp)
      · exact absurd hn (by simp)

/-- Witness for the amended C2 at `{originalEstimate: 8}` with no state in
the patch (hence non-closed). -/
theorem c2_estimate_mirroring_witness :
    PatchOp.add (.field oePath) (.int 8) ∈
      buildPatchBody [("originalEstimate", PyVal.int 8)]
        ⟨false, fun _ => .error ()⟩ Option.none Option.none ∧
    PatchOp.add (.field rwPath) (.int 8) ∈
      buildPatchBody [("originalEstimate", PyVal.int 8)]
        ⟨false, fun _ => .error ()⟩ Option.none Option.none :=
  (c2_estimate_mirroring [("originalEstimate", PyVal.int 8)]
    ⟨false, fun _ => .error ()⟩ Option.none Option.none (.int 8)
    rfl (by decide) (Or.inl (by decide))).1 (by decide)

/-- C6: normalizing `"\\Area\\Backend"` does not yield `"Backend"`: the code
drops a container segment only at index 1, and here `"Area"` sits at index 0
while `"Backend"` sits at index 1. -/
theorem c6_counterexample :
    ¬ (normalizeTreePath ("\\Area\\Backend".toList) = ("Backend".toList)) := by
  decide

/-- C6 (amended): normalizing `"\\Area\\Backend"` yields `"Area\\Backend"`
(only the leading separator is removed); normalizing `"Area"` yields
`"Area"`, which the patch builder recognizes as a container-only path and
drops — the emitted patch for `{areaPath: "Area"}` is empty whatever the
validation environment and parent snapshot are. -/
theorem c6_normalize_examples :
    normalizeTreePath ("\\Area\\Backend".toList) = ("Area\\Backend".toList) ∧
    normalizeTreePath ("Area".toList) = ("Area".toList) ∧
    ∀ (ctx : PatchCtx) (eIdx : Option Nat) (eId : Option Int),
      buildPatchBody [("areaPath", PyVal.str ("Area".toList))] ctx eIdx eId = [] :=
  ⟨by decide, by decide, fun ctx eIdx eId => rfl⟩

/-! ## The query compiler (`AzureDevOpsClient.query_todos`) -/

/-- One WIQL predicate clause; one constructor per f-string template in
`query_todos`, carrying the interpolated fragments. -/
inductive Clause where
  | teamProject
  | stateNotRemoved
  | typeEq (t : Str)
  | typeIn (ts : List Str)
  | typeNeEpic
  | stateIn (ss : List Str)
  | stateEq (s : Str)
  | assignedToContains (s : Str)
  | idEqOrTitleContains (k : Str)
  | titleContains (k : Str)
  | startDateGe (d : Str)
  | startDateLe (d : Str)
  deriving DecidableEq

/-- The keyword-argument filters of `query_todos` (the `project` path
segment does not shape the clause list and is omitted). -/
structure Filters where
  state : Option Str
  keyword : Option Str
  assignedTo : Option Str
  workItemType : Option Str
  plannedFrom : Option Str
  plannedTo : Option Str
  page : Int
  pageSize : Int
  deriving DecidableEq

/-- The frontend sentinel meaning "exclude Epics". -/
def noEpicSentinel : Str := "__NO_EPIC__".toList

/-- `page = max(page, 1)`. -/
def clampPage (p : Int) : Int := max p 1

/-- `page_size = max(min(page_size, 200), 1)`. -/
def clampPageSize (ps : Int) : Int := max (min ps 200) 1

/-- The type filter after sentinel handling (`work_item_type = None` when
the filter is exactly the sentinel). -/
def effType (f : Filters) : Option Str :=
  if f.workItemType = some noEpicSentinel then Option.none else f.workItemType

/-- `[t.strip() for t in s.split(",") if t.strip()]`. -/
def parseCsv (s : Str) : List Str :=
  ((pySplit ',' s).map stripWs).filter (fun t => t ≠ [])

/-- `keyword_str.isdigit()` (ASCII fragment). -/
def pyIsDigit (s : Str) : Prop := s ≠ [] ∧ ∀ c ∈ s, c.isDigit

instance (s : Str) : Decidable (pyIsDigit s) := by
  unfold pyIsDigit; infer_instance

/-- The work-item-type clauses of the compiled query. -/
def typeClauses (wt : Option Str) : List Clause :=
  match wt with
  | some s =>
    if s ≠ [] then
      match parseCsv s with
      | [] => []
      | [t] => [Clause.typeEq t]
      | t1 :: t2 :: rest => [Clause.typeIn (t1 :: t2 :: rest)]
    else []
  | Option.none => []

/-- The state clauses: a comma means a set-membership clause over the
parsed entries; otherwise an equality clause over the raw string. -/
def stateClauses (st : Option Str) : List Clause :=
  match st with
  | some s =>
    if s ≠ [] then
      if ',' ∈ s then
        match parseCsv s with
        | [] => []
        | s1 :: rest => [Clause.stateIn (s1 :: rest)]
      else [Clause.stateEq s]
    else []
  | Option.none => []

/-- The keyword clause: a numeric keyword compiles to an id-equality-or-
title-containment disjunction, a non-numeric one to title containment. -/
def keywordClauses (kw : Option Str) : List Clause :=
  match kw with
  | some s =>
    if s ≠ [] then
      if pyIsDigit (stripWs s) then [Clause.idEqOrTitleContains (stripWs s)]
      else [Clause.titleContains (stripWs s)]
    else []
  | Option.none => []

/-- An `if x: clauses.append(template.format(x))` segment: one clause when
the optional string is truthy, nothing otherwise. -/
def optClause (mk : Str → Clause) (o : Option Str) : List Clause :=
  match o with
  | some s => if s ≠ [] then [mk s] else []
  | Option.none => []

/-- The full ordered clause list of the compiled WIQL query (the fixed
projection and ORDER BY are constants and are not modelled). -/
def compileClauses (f : Filters) : List Clause :=
  [Clause.teamProject, Clause.stateNotRemoved]
  ++ typeClauses (effType f)
  ++ (if f.workItemType = some noEpicSentinel then [Clause.typeNeEpic] else [])
  ++ stateClauses f.state
  ++ optClause Clause.assignedToContains f.assignedTo
  ++ keywordClauses f.keyword
  ++ optClause Clause.startDateGe f.plannedFrom
  ++ optClause Clause.startDateLe f.plannedTo

/-- An `AzureDevOpsError` as caught by `query_todos`: its optional status
code and its message. -/
structure AdoError where
  status : Option Int
  msg : Str
  deriving DecidableEq

/-- A work item as mapped by `_map_work_item`: the sorting and windowing
code only inspects `changedDate`; everything else is opaque payload. -/
structure AggItem where
  payload : Nat
  changedDate : Option Str
  deriving DecidableEq

/-- `r.get("changedDate") or ""`. -/
def sortKey (it : AggItem) : Str := it.changedDate.getD []

/-- Python's stable `list.sort(key=..., reverse=True)`: the unique stable
descending-by-key order, realized by insertion sort with
"key of the left argument is at least the key of the right". -/
def pySortByChangedDateDesc (items : List AggItem) : List AggItem :=
  items.insertionSort fun x y => sortKey y ≤ sortKey x

/-- `range(start, stop, step)` for a positive step. -/
def pyRange (start stop step : Nat) : List Nat :=
  (List.range ((stop - start + step - 1) / step)).map fun k => start + k * step

/-- `AzureDevOpsClient._chunk`:
`[items[i : i + size] for i in range(0, len(items), size)]`. -/
def chunk {α : Type} (items : List α) (size : Nat) : List (List α) :=
  (pyRange 0 items.length size).map fun i => (items.drop i).take size

/-- The hydration loop of `query_todos`: one batched call per 200-id chunk,
results concatenated, a raised error propagating. -/
def hydrate (getBatch : List Int → Except AdoError (List AggItem))
    (ids : List Int) : Except AdoError (List AggItem) :=
  (chunk ids 200).foldlM (fun acc c => (getBatch c).map fun items => acc ++ items) []

/-- The filters actually passed to the retry call inside `query_todos`:
type filter and planned-date bounds cleared, page and pageSize already
clamped. -/
def actualRetryFilters (f : Filters) : Filters :=
  { state := f.state, keyword := f.keyword, assignedTo := f.assignedTo,
    workItemType := Option.none, plannedFrom := Option.none,
    plannedTo := Option.none, page := clampPage f.page,
    pageSize := clampPageSize f.pageSize }

/-- `AzureDevOpsClient.query_todos`, parameterized by the WIQL-execution
and batch-hydration network calls; the first component records the WIQL
queries issued (as clause lists), the second the returned value or the
propagated error.  A caught WIQL failure either triggers the recursive
retry (status 400 with a truthy post-sentinel type filter) or yields an
empty result list. -/
def queryTodos (wiqlExec : List Clause → Except AdoError (List Int))
    (getBatch : List Int → Except AdoError (List AggItem)) (f : Filters) :
    List (List Clause) × Except AdoError (List AggItem) :=
  let q := compileClauses f
  match wiqlExec q with
  | .error e =>
    if h : e.status = some 400 ∧ strTruthy (effType f) then
      let r := queryTodos wiqlExec getBatch (actualRetryFilters f)
      (q :: r.1, r.2)
    else
      ([q], .ok [])
  | .ok workItems =>
    let skip := ((clampPage f.page - 1) * clampPageSize f.pageSize).toNat
    let pageItems := (workItems.drop skip).take (clampPageSize f.pageSize).toNat
    let ids := pageItems.filter fun i => i ≠ 0
    if ids = [] then ([q], .ok [])
    else
      match hydrate getBatch ids with
      | .error e => ([q], .error e)
      | .ok results => ([q], .ok (pySortByChangedDateDesc results))
termination_by (if strTruthy (effType f) then 1 else 0)
decreasing_by
  have h1 : ¬ strTruthy (effType (actualRetryFilters f)) := by
    simp [actualRetryFilters, effType, strTruthy]
  rw [if_neg h1, if_pos h.2]
  exact Nat.zero_lt_one

theorem queryTodos_trace_single (w : List Clause → Except AdoError (List Int))
    (g : List Int → Except AdoError (List AggItem)) (f : Filters)
    (hf : ¬ strTruthy (effType f)) :
    (queryTodos w g f).1 = [compileClauses f] := by
  rw [queryTodos.eq_def]
  dsimp only
  cases hw : w (compileClauses f) with
  | error e =>
    dsimp only
    rw [dif_neg (fun hcon => hf hcon.2)]
  | ok items =>
    dsimp only
    split
    · rfl
    · split <;> rfl

/-- The retry filters as the spec's claim describes them: only the type
filter removed, everything else (including the planned-date bounds)
preserved. -/
def claimRetryFilters (f : Filters) : Filters :=
  { f with
    workItemType := Option.none,
    page := clampPage f.page,
    pageSize := clampPageSize f.pageSize }

/-- Claim C1 as the spec states it: on a 400 WIQL failure with a type
filter, retry exactly once with only the type filter removed; any other
WIQL failure propagates unchanged to the caller. -/
def queryRetryClaim : Prop :=
  ∀ (w : List Clause → Except AdoError (List Int))
    (g : List Int → Except AdoError (List AggItem)) (f : Filters)
    (e : AdoError), w (compileClauses f) = .error e →
    ((e.status = some 400 ∧ strTruthy (effType f)) →
      (queryTodos w g f).1 =
        [compileClauses f, compileClauses (claimRetryFilters f)] ∧
      (queryTodos w g f).2 = (queryTodos w g (claimRetryFilters f)).2) ∧
    (¬ (e.status = some 400 ∧ strTruthy (effType f)) →
      (queryTodos w g f).2 = .error e)

/-- A backend whose WIQL execution always fails with status 500. -/
def alwaysFail500 : List Clause → Except AdoError (List Int) :=
  fun _ => .error ⟨some 500, "boom".toList⟩

/-- A hydration backend returning nothing. -/
def emptyBatches : List Int → Except AdoError (List AggItem) :=
  fun _ => .ok []

/-- The empty filter set (all filters off, page 1, pageSize 20). -/
def defaultFilters : Filters :=
  ⟨Option.none, Option.none, Option.none, Option.none, Option.none,
    Option.none, 1, 20⟩

/-- C1: the claim as stated is false.  A WIQL failure other than the
400-with-type-filter case does not propagate: `query_todos` logs it and
returns an empty list (`.ok []`), never the error. -/
theorem c1_counterexample : ¬ queryRetryClaim := by
  intro h
  have h2 := (h alwaysFail500 emptyBatches defaultFilters
      ⟨some 500, "boom".toList⟩ rfl).2 (by decide)
  have h3 : (queryTodos alwaysFail500 emptyBatches defaultFilters).2 =
      .ok [] := by
    rw [queryTodos.eq_def]
    dsimp only [alwaysFail500]
    rw [dif_neg (by decide)]
  rw [h3] at h2
  exact absurd h2 (by simp)

/-- C1 (amended): when the first WIQL execution fails with status 400 and
the post-sentinel type filter is truthy, `query_todos` retries exactly once
with the type filter *and the planned-date bounds* removed (state, keyword,
assignee, clamped page and pageSize preserved), and returns whatever the
retry returns; on every other WIQL failure it swallows the error and
returns an empty result list. -/
theorem c1_retry_behavior (w : List Clause → Except AdoError (List Int))
    (g : List Int → Except AdoError (List AggItem)) (f : Filters)
    (e : AdoError) (herr : w (compileClauses f) = .error e) :
    ((e.status = some 400 ∧ strTruthy (effType f)) →
      (queryTodos w g f).1 =
        [compileClauses f, compileClauses (actualRetryFilters f)] ∧
      (queryTodos w g f).2 =
        (queryTodos w g (actualRetryFilters f)).2) ∧
    (¬ (e.status = some 400 ∧ strTruthy (effType f)) →
      queryTodos w g f = ([compileClauses f], .ok [])) := by
  constructor
  · intro hcond
    have hstep : queryTodos w g f =
        (compileClauses f :: (queryTodos w g (actualRetryFilters f)).1,
         (queryTodos w g (actualRetryFilters f)).2) := by
      rw [queryTodos.eq_def]
      dsimp only
      rw [herr]
      dsimp only
      rw [dif_pos hcond]
    refine ⟨?_, by rw [hstep]⟩
    rw [hstep]
    dsimp only
    rw [queryTodos_trace_single w g (actualRetryFilters f)
      (by simp [actualRetryFilters, effType, strTruthy])]
  · intro hcond
    rw [queryTodos.eq_def]
    dsimp only
    rw [herr]
    dsimp only
    rw [dif_neg hcond]

/-- Witness for the amended C1: an always-400 backend with a `"Bug"` type
filter and a planned-from bound; the two issued queries are the original
and the retry with type and planned clauses gone. -/
theorem c1_retry_behavior_witness :
    (queryTodos (fun _ => .error ⟨some 400, []⟩) emptyBatches
        ⟨Option.none, Option.none, Option.none, some ("Bug".toList),
          some ("2024-01-01".toList), Option.none, 1, 20⟩).1 =
      [compileClauses
        ⟨Option.none, Option.none, Option.none, some ("Bug".toList),
          some ("2024-01-01".toList), Option.none, 1, 20⟩,
       compileClauses (actualRetryFilters
        ⟨Option.none, Option.none, Option.none, some ("Bug".toList),
          some ("2024-01-01".toList), Option.none, 1, 20⟩)] :=
  ((c1_retry_behavior (fun _ => .error ⟨some 400, []⟩) emptyBatches
      ⟨Option.none, Option.none, Option.none, some ("Bug".toList),
        some ("2024-01-01".toList), Option.none, 1, 20⟩
      ⟨some 400, []⟩ rfl).1 (by decide)).1

/-! ### Sentinel handling in the type filter (claim C4) -/

/-- Does a clause carry the sentinel verbatim inside a type-filter clause? -/
def clauseMentionsSentinel : Clause → Prop
  | .typeEq t => t = noEpicSentinel
  | .typeIn ts => noEpicSentinel ∈ ts
  | _ => False

instance (c : Clause) : Decidable (clauseMentionsSentinel c) := by
  unfold clauseMentionsSentinel
  cases c <;> infer_instance

/-- The sentinel appears verbatim in some compiled type-filter clause. -/
def typeFilterMentionsSentinel (cs : List Clause) : Prop :=
  ∃ c ∈ cs, clauseMentionsSentinel c

instance (cs : List Clause) : Decidable (typeFilterMentionsSentinel cs) := by
  unfold typeFilterMentionsSentinel; infer_instance

/-- Claim C4 as the spec states it: for every filter input the sentinel is
stripped from the type list, never appearing verbatim in a compiled
type-filter clause, and whenever the sentinel occurs among the
comma-separated entries, a separate "type ≠ Epic" clause is emitted. -/
def sentinelClaim : Prop :=
  ∀ f : Filters,
    ¬ typeFilterMentionsSentinel (compileClauses f) ∧
    (∀ s, f.workItemType = some s → noEpicSentinel ∈ parseCsv s →
      Clause.typeNeEpic ∈ compileClauses f)

/-- C4: the claim as stated is false.  The sentinel is handled only when it
is the *entire* filter string: for `"Bug,__NO_EPIC__"` the compiled filter
is the set-membership clause over `["Bug", "__NO_EPIC__"]` — the sentinel
verbatim — and no "type ≠ Epic" clause is emitted. -/
theorem c4_counterexample : ¬ sentinelClaim := by
  intro h
  exact (h ⟨Option.none, Option.none, Option.none,
    some ("Bug,__NO_EPIC__".toList), Option.none, Option.none, 1, 20⟩).1
    (by decide)

theorem mem_optClause {mk : Str → Clause} {o : Option Str} {c : Clause}
    (h : c ∈ optClause mk o) : ∃ s, c = mk s := by
  cases o with
  | none => simp [optClause] at h
  | some s =>
    simp only [optClause] at h
    split at h
    · exact ⟨s, List.mem_singleton.mp h⟩
    · simp at h

theorem mem_typeClauses_shape {wt : Option Str} {c : Clause}
    (h : c ∈ typeClauses wt) :
    (∃ t, c = Clause.typeEq t) ∨ (∃ ts, c = Clause.typeIn ts) := by
  cases wt with
  | none => simp [typeClauses] at h
  | some s =>
    simp only [typeClauses] at h
    split at h
    · split at h
      · simp at h
      · exact Or.inl ⟨_, List.mem_singleton.mp h⟩
      · exact Or.inr ⟨_, List.mem_singleton.mp h⟩
    · simp at h

theorem mem_stateClauses_shape {st : Option Str} {c : Clause}
    (h : c ∈ stateClauses st) :
    (∃ ss, c = Clause.stateIn ss) ∨ (∃ s, c = Clause.stateEq s) := by
  cases st with
  | none => simp [stateClauses] at h
  | some s =>
    simp only [stateClauses] at h
    split at h
    · split at h
      · split at h
        · simp at h
        · exact Or.inl ⟨_, List.mem_singleton.mp h⟩
      · exact Or.inr ⟨s, List.mem_singleton.mp h⟩
    · simp at h

theorem mem_keywordClauses_shape {kw : Option Str} {c : Clause}
    (h : c ∈ keywordClauses kw) :
    (∃ k, c = Clause.idEqOrTitleContains k) ∨
    (∃ k, c = Clause.titleContains k) := by
  cases kw with
  | none => simp [keywordClauses] at h
  | some s =>
    simp only [keywordClauses] at h
    split at h
    · split at h
      · exact Or.inl ⟨_, List.mem_singleton.mp h⟩
      · exact Or.inr ⟨_, List.mem_singleton.mp h⟩
    · simp at h

/-- Any compiled clause is accounted for by exactly one segment of
`compileClauses`. -/
theorem compileClauses_decomp {f : Filters} {c : Clause}
    (hc : c ∈ compileClauses f) :
    c = Clause.teamProject ∨ c = Clause.stateNotRemoved ∨
    c ∈ typeClauses (effType f) ∨
    (c = Clause.typeNeEpic ∧ f.workItemType = some noEpicSentinel) ∨
    c ∈ stateClauses f.state ∨
    c ∈ optClause Clause.assignedToContains f.assignedTo ∨
    c ∈ keywordClauses f.keyword ∨
    c ∈ optClause Clause.startDateGe f.plannedFrom ∨
    c ∈ optClause Clause.startDateLe f.plannedTo := by
  unfold compileClauses at hc
  simp only [List.append_assoc] at hc
  rcases List.mem_append.mp hc with h0 | hc
  · rcases List.mem_cons.mp h0 with h | h
    · exact Or.inl h
    · exact Or.inr (Or.inl (List.mem_singleton.mp h))
  rcases List.mem_append.mp hc with h0 | hc
  · exact Or.inr (Or.inr (Or.inl h0))
  rcases List.mem_append.mp hc with h0 | hc
  · by_cases hs : f.workItemType = some noEpicSentinel
    · rw [if_pos hs] at h0
      exact Or.inr (Or.inr (Or.inr (Or.inl ⟨List.mem_singleton.mp h0, hs⟩)))
    · rw [if_neg hs] at h0
      exact absurd h0 (by simp)
  rcases List.mem_append.mp hc with h0 | hc
  · exact Or.inr (Or.inr (Or.inr (Or.inr (Or.inl h0))))
  rcases List.mem_append.mp hc with h0 | hc
  · exact Or.inr (Or.inr (Or.inr (Or.inr (Or.inr (Or.inl h0)))))
  rcases List.mem_append.mp hc with h0 | hc
  · exact Or.inr (Or.inr (Or.inr (Or.inr (Or.inr (Or.inr (Or.inl h0))))))
  rcases List.mem_append.mp hc with h0 | h0
  · exact Or.inr (Or.inr (Or.inr (Or.inr (Or.inr (Or.inr (Or.inr (Or.inl h0)))))))
  · exact Or.inr (Or.inr (Or.inr (Or.inr (Or.inr (Or.inr (Or.inr (Or.inr h0)))))))

/-- C4 (amended): the sentinel is special-cased only when it is the entire
type-filter value.  In that case the type list is empty, a "type ≠ Epic"
clause is emitted, and no compiled clause carries the sentinel.  For every
other value no "type ≠ Epic" clause is emitted, and if the sentinel occurs
among the comma-separated entries it survives verbatim inside the compiled
equality or set-membership type clause. -/
theorem c4_sentinel_handling (f : Filters) :
    (f.workItemType = some noEpicSentinel →
      typeClauses (effType f) = [] ∧
      Clause.typeNeEpic ∈ compileClauses f ∧
      ∀ c ∈ compileClauses f, ¬ clauseMentionsSentinel c) ∧
    (f.workItemType ≠ some noEpicSentinel →
      Clause.typeNeEpic ∉ compileClauses f ∧
      ∀ s, f.workItemType = some s → noEpicSentinel ∈ parseCsv s →
        typeFilterMentionsSentinel (compileClauses f)) := by
  constructor
  · intro hsent
    have hefft : effType f = Option.none := by
      unfold effType
      rw [if_pos hsent]
    refine ⟨by rw [hefft]; rfl, ?_, ?_⟩
    · unfold compileClauses
      rw [if_pos hsent]
      simp
    · intro c hc hm
      rcases compileClauses_decomp hc with h | h | h | h | h | h | h | h | h
      · subst h; exact hm
      · subst h; exact hm
      · rw [hefft] at h
        exact absurd h (by simp [typeClauses])
      · rw [h.1] at hm
        exact hm
      · rcases mem_stateClauses_shape h with ⟨ss, hss⟩ | ⟨s, hs⟩
        · subst hss; exact hm
        · subst hs; exact hm
      · obtain ⟨s, hs⟩ := mem_optClause h
        subst hs; exact hm
      · rcases mem_keywordClauses_shape h with ⟨k, hk⟩ | ⟨k, hk⟩
        · subst hk; exact hm
        · subst hk; exact hm
      · obtain ⟨s, hs⟩ := mem_optClause h
        subst hs; exact hm
      · obtain ⟨s, hs⟩ := mem_optClause h
        subst hs; exact hm
  · intro hns
    constructor
    · intro hmem
      rcases compileClauses_decomp hmem with h | h | h | h | h | h | h | h | h
      · exact absurd h (by simp)
      · exact absurd h (by simp)
      · rcases mem_typeClauses_shape h with ⟨t, ht⟩ | ⟨ts, hts⟩
        · exact absurd ht (by simp)
        · exact absurd hts (by simp)
      · exact hns h.2
      · rcases mem_stateClauses_shape h with ⟨ss, hss⟩ | ⟨s, hs⟩
        · exact absurd hss (by simp)
        · exact absurd hs (by simp)
      · obtain ⟨s, hs⟩ := mem_optClause h
        exact absurd hs (by simp [optClause])
      · rcases mem_keywordClauses_shape h with ⟨k, hk⟩ | ⟨k, hk⟩
        · exact absurd hk (by simp)
        · exact absurd hk (by simp)
      · obtain ⟨s, hs⟩ := mem_optClause h
        exact absurd hs (by simp)
      · obtain ⟨s, hs⟩ := mem_optClause h
        exact absurd hs (by simp)
    · intro s hws hsmem
      have hse : s ≠ [] := by
        intro hnil
        rw [hnil] at hsmem
        exact absurd hsmem (by decide)
      have hefft : effType f = some s := by
        unfold effType
        rw [if_neg hns]
        exact hws
      have hty : ∃ c ∈ typeClauses (effType f), clauseMentionsSentinel c := by
        rw [hefft]
        cases hp : parseCsv s with
        | nil =>
          rw [hp] at hsmem
          exact absurd hsmem (by simp)
        | cons t1 rest =>
          cases rest with
          | nil =>
            refine ⟨Clause.typeEq t1, ?_, ?_⟩
            · simp only [typeClauses]
              rw [if_pos hse, hp]
              exact List.mem_singleton_self _
            · have h1 : noEpicSentinel = t1 := by
                rw [hp] at hsmem
                simpa using hsmem
              unfold clauseMentionsSentinel
              exact h1.symm
          | cons t2 rest2 =>
            refine ⟨Clause.typeIn (t1 :: t2 :: rest2), ?_, ?_⟩
            · simp only [typeClauses]
              rw [if_pos hse, hp]
              exact List.mem_singleton_self _
            · unfold clauseMentionsSentinel
              rw [hp] at hsmem
              exact hsmem
      obtain ⟨c, hcm, hcs⟩ := hty
      refine ⟨c, ?_, hcs⟩
      unfold compileClauses
      simp only [List.append_assoc, List.mem_append]
      exact Or.inr (Or.inl hcm)

/-- Witness for the amended C4: the sentinel-only filter compiles to a
clause list containing "type ≠ Epic" and no sentinel-carrying type clause;
the filter `"Bug"` yields no "type ≠ Epic" clause. -/
theorem c4_sentinel_handling_witness :
    Clause.typeNeEpic ∈ compileClauses
      ⟨Option.none, Option.none, Option.none, some noEpicSentinel,
        Option.none, Option.none, 1, 20⟩ ∧
    Clause.typeNeEpic ∉ compileClauses
      ⟨Option.none, Option.none, Option.none, some ("Bug".toList),
        Option.none, Option.none, 1, 20⟩ :=
  ⟨((c4_sentinel_handling
      ⟨Option.none, Option.none, Option.none, some noEpicSentinel,
        Option.none, Option.none, 1, 20⟩).1 rfl).2.1,
    ((c4_sentinel_handling
      ⟨Option.none, Option.none, Option.none, some ("Bug".toList),
        Option.none, Option.none, 1, 20⟩).2 (by decide)).1⟩

/-! ## The multi-project aggregator (`list_all_todos` in `app.py`) -/

/--
The deterministic tail of `list_all_todos`, applied to the per-project
result batches in the order their futures completed: batches are
concatenated (`aggregated.extend(future.result())` under `as_completed`),
stably sorted by `changedDate` descending, and windowed by the caller's
page; `hasMore` is "window end strictly below total".  A failed project's
batch is already `[]` here (the worker catches every exception).
-/
def aggregate (batches : List (List AggItem)) (page pageSize : Nat) :
    List AggItem × Bool :=
  let aggregated := batches.flatten
  let sorted := pySortByChangedDateDesc aggregated
  let start := (page - 1) * pageSize
  ((sorted.drop start).take pageSize, start + pageSize < sorted.length)

/-- Claim C3 as the spec states it: the final output is identical for any
two completion orders of the same per-project batches. -/
def aggregatorDeterministicClaim : Prop :=
  ∀ (batches1 batches2 : List (List AggItem)) (page pageSize : Nat),
    batches1.Perm batches2 →
    aggregate batches1 page pageSize = aggregate batches2 page pageSize

/-- C3: the claim as stated is false.  Python's sort is stable, so two
items with the same `changedDate` keep their accumulation order, which is
the completion order: two single-item batches with equal dates produce
differently ordered pages depending on which project finished first. -/
theorem c3_counterexample : ¬ aggregatorDeterministicClaim := by
  intro h
  have h2 := h
    [[⟨0, some ("2024-01-01".toList)⟩], [⟨1, some ("2024-01-01".toList)⟩]]
    [[⟨1, some ("2024-01-01".toList)⟩], [⟨0, some ("2024-01-01".toList)⟩]]
    1 2 (by decide)
  exact absurd h2 (by decide)

/-- Two stably-descending-sorted permutations of each other whose sort keys
are pairwise distinct are equal. -/
theorem sorted_perm_eq_of_nodup_keys :
    ∀ (l1 l2 : List AggItem),
      List.Sorted (fun x y => sortKey y ≤ sortKey x) l1 →
      List.Sorted (fun x y => sortKey y ≤ sortKey x) l2 →
      l1.Perm l2 → (l1.map sortKey).Nodup → l1 = l2
  | [], l2, _, _, hperm, _ => hperm.nil_eq
  | a :: t1, [], _, _, hperm, _ => absurd hperm.eq_nil (by simp)
  | a :: t1, b :: t2, hs1, hs2, hperm, hnd => by
    have hnd' : (sortKey a :: t1.map sortKey).Nodup := by
      rw [List.map_cons] at hnd
      exact hnd
    have hab : a = b := by
      by_contra hne
      have hamem : a ∈ b :: t2 := hperm.subset (List.mem_cons_self a t1)
      have hbmem : b ∈ a :: t1 := hperm.symm.subset (List.mem_cons_self b t2)
      have ha2 : a ∈ t2 := by
        rcases List.mem_cons.mp hamem with h | h
        · exact absurd h hne
        · exact h
      have hb1 : b ∈ t1 := by
        rcases List.mem_cons.mp hbmem with h | h
        · exact absurd h.symm hne
        · exact h
      have hle1 : sortKey b ≤ sortKey a :=
        (List.sorted_cons.mp hs1).1 b hb1
      have hle2 : sortKey a ≤ sortKey b :=
        (List.sorted_cons.mp hs2).1 a ha2
      have hkeq : sortKey b = sortKey a := le_antisymm hle1 hle2
      exact (List.nodup_cons.mp hnd').1
        (hkeq ▸ List.mem_map_of_mem sortKey hb1)
    subst hab
    have hrest : t1 = t2 :=
      sorted_perm_eq_of_nodup_keys t1 t2
        (List.sorted_cons.mp hs1).2 (List.sorted_cons.mp hs2).2
        hperm.cons_inv (List.nodup_cons.mp hnd').2
    rw [hrest]

/-- C3 (amended): the merged, windowed output is independent of the
completion order whenever no two merged items share the same changedDate
sort key.  (With duplicate keys the stable sort preserves accumulation
order among equal keys, so completion order can leak into the output.) -/
theorem c3_aggregate_deterministic (batches1 batches2 : List (List AggItem))
    (page pageSize : Nat) (hperm : batches1.Perm batches2)
    (hkeys : (batches1.flatten.map sortKey).Nodup) :
    aggregate batches1 page pageSize = aggregate batches2 page pageSize := by
  have hjoin : batches1.flatten.Perm batches2.flatten := hperm.flatten
  have hr : ∀ l : List AggItem,
      List.Sorted (fun x y => sortKey y ≤ sortKey x)
        (pySortByChangedDateDesc l) := by
    intro l
    haveI ht : IsTotal AggItem (fun x y => sortKey y ≤ sortKey x) :=
      ⟨fun x y => le_total (sortKey y) (sortKey x)⟩
    haveI htr : IsTrans AggItem (fun x y => sortKey y ≤ sortKey x) :=
      ⟨fun _ _ _ hxy hyz => le_trans hyz hxy⟩
    exact List.sorted_insertionSort _ l
  have hp1 : (pySortByChangedDateDesc batches1.flatten).Perm batches1.flatten :=
    List.perm_insertionSort _ _
  have hp2 : (pySortByChangedDateDesc batches2.flatten).Perm batches2.flatten :=
    List.perm_insertionSort _ _
  have hpp : (pySortByChangedDateDesc batches1.flatten).Perm
      (pySortByChangedDateDesc batches2.flatten) :=
    (hp1.trans hjoin).trans hp2.symm
  have hnd : ((pySortByChangedDateDesc batches1.flatten).map sortKey).Nodup :=
    ((hp1.map sortKey).nodup_iff).mpr hkeys
  have hsorted_eq : pySortByChangedDateDesc batches1.flatten =
      pySortByChangedDateDesc batches2.flatten :=
    sorted_perm_eq_of_nodup_keys _ _ (hr batches1.flatten) (hr batches2.flatten)
      hpp hnd
  unfold aggregate
  dsimp only
  rw [hsorted_eq]

/-- Witness for the amended C3 at three single-item batches with pairwise
distinct dates, in two completion orders. -/
theorem c3_aggregate_deterministic_witness :
    aggregate [[⟨0, some ("2024-01-03".toList)⟩],
      [⟨1, some ("2024-01-01".toList)⟩], [⟨2, some ("2024-01-02".toList)⟩]]
      1 2 =
    aggregate [[⟨1, some ("2024-01-01".toList)⟩],
      [⟨2, some ("2024-01-02".toList)⟩], [⟨0, some ("2024-01-03".toList)⟩]]
      1 2 :=
  c3_aggregate_deterministic
    [[⟨0, some ("2024-01-03".toList)⟩], [⟨1, some ("2024-01-01".toList)⟩],
      [⟨2, some ("2024-01-02".toList)⟩]]
    [[⟨1, some ("2024-01-01".toList)⟩], [⟨2, some ("2024-01-02".toList)⟩],
      [⟨0, some ("2024-01-03".toList)⟩]]
    1 2 (by decide) (by decide)

/-! ## The request layer (`AzureDevOpsClient._request`) -/

/-- The response facts `_request` inspects: the status code, the
Content-Type header, the parsed body's `message` entry (absent when the
body has none; a JSON body is assumed parseable when the header declares
JSON), and the raw body text. -/
structure HttpResponse where
  status : Nat
  contentType : Str
  jsonMessage : Option Str
  text : Str

/-- What `_request` does with a response: return it, raise
`AzureDevOpsAuthError`, or raise `AzureDevOpsError`. -/
inductive RequestOutcome where
  | ok
  | authError (status : Nat)
  | apiError (message : Str) (status : Nat)
  deriving DecidableEq

def adoDefaultMsg : Str := "Azure DevOps API error".toList

/-- The message attached to a raised `AzureDevOpsError`: the JSON body's
`message` when the Content-Type starts with `application/json`, else the
raw text; a falsy message falls back to the fixed default. -/
def responseMessage (r : HttpResponse) : Str :=
  let message : Option Str :=
    if ("application/json".toList) <+: r.contentType then r.jsonMessage
    else some r.text
  match message with
  | some m => if m ≠ [] then m else adoDefaultMsg
  | Option.none => adoDefaultMsg

/-- `AzureDevOpsClient._request` after the HTTP call returns. -/
def processResponse (r : HttpResponse) : RequestOutcome :=
  if r.status = 401 ∨ r.status = 403 then .authError r.status
  else if 400 ≤ r.status then .apiError (responseMessage r) r.status
  else .ok

def isAuthOutcome : RequestOutcome → Prop
  | .authError _ => True
  | _ => False

instance (o : RequestOutcome) : Decidable (isAuthOutcome o) := by
  unfold isAuthOutcome; cases o <;> infer_instance

def isApiOutcome : RequestOutcome → Prop
  | .apiError _ _ => True
  | _ => False

instance (o : RequestOutcome) : Decidable (isApiOutcome o) := by
  unfold isApiOutcome; cases o <;> infer_instance

/-- Claim C7 as the spec states it: an auth failure exactly on 401/403, a
backend failure on every *other non-2xx* status, and nothing raised on
2xx. -/
def requestErrorClaim : Prop :=
  ∀ r : HttpResponse,
    (isAuthOutcome (processResponse r) ↔ (r.status = 401 ∨ r.status = 403)) ∧
    (isApiOutcome (processResponse r) ↔
      (¬ (200 ≤ r.status ∧ r.status < 300) ∧
        ¬ (r.status = 401 ∨ r.status = 403)))

/-- C7: the claim as stated is false.  `_request` raises only for statuses
≥ 400; a non-2xx status below 400 — e.g. 304 — raises nothing, while the
claim demands a BackendFailure for it. -/
theorem c7_counterexample : ¬ requestErrorClaim := by
  intro h
  have h2 := (h ⟨304, "text/html".toList, Option.none, [] ⟩).2
  exact absurd (h2.mpr (by decide)) (by decide)

/-- C7 (amended): `_request` raises an AuthFailure carrying the status
exactly on 401/403, raises a BackendFailure — carrying the status and the
JSON body's message when the Content-Type declares JSON else the raw text,
with a fixed default for a falsy message — exactly on the other statuses
≥ 400, and returns the response unraised for every status below 400
(including 1xx and 3xx). -/
theorem c7_request_outcomes (r : HttpResponse) :
    (processResponse r = .authError r.status ↔
      (r.status = 401 ∨ r.status = 403)) ∧
    (processResponse r = .apiError (responseMessage r) r.status ↔
      (400 ≤ r.status ∧ ¬ (r.status = 401 ∨ r.status = 403))) ∧
    (processResponse r = .ok ↔
      (r.status < 400 ∧ ¬ (r.status = 401 ∨ r.status = 403))) := by
  unfold processResponse
  by_cases h1 : r.status = 401 ∨ r.status = 403
  · rw [if_pos h1]
    refine ⟨⟨fun _ => h1, fun _ => rfl⟩, ⟨fun h => ?_, fun h => absurd h1 h.2⟩,
      ⟨fun h => ?_, fun h => absurd h1 h.2⟩⟩
    · exact absurd h (by simp)
    · exact absurd h (by simp)
  · rw [if_neg h1]
    by_cases h2 : 400 ≤ r.status
    · rw [if_pos h2]
      refine ⟨⟨fun h => ?_, fun h => absurd h h1⟩,
        ⟨fun _ => ⟨h2, h1⟩, fun _ => rfl⟩,
        ⟨fun h => ?_, fun h => absurd h2 (by omega)⟩⟩
      · exact absurd h (by simp)
      · exact absurd h (by simp)
    · rw [if_neg h2]
      refine ⟨⟨fun h => ?_, fun h => absurd h h1⟩,
        ⟨fun h => ?_, fun h => absurd h.1 h2⟩,
        ⟨fun _ => ⟨by omega, h1⟩, fun _ => rfl⟩⟩
      · exact absurd h (by simp)
      · exact absurd h (by simp)

/-! ## Listing operations (`list_tags`, `list_area_paths`,
`list_iteration_paths`) -/

/-- One node of the classification-nodes response tree. -/
inductive CNode where
  | mk (path : Option Str) (name : Option Str) (children : List CNode)

/-- `str(x)` as interpolated into an f-string (`None` prints as "None"). -/
def fmtOpt (o : Option Str) : Str :=
  match o with
  | some s => s
  | Option.none => "None".toList

mutual
/-- `AzureDevOpsClient._flatten_classification_nodes`: pre-order traversal
emitting the normalized truthy path of each node; the (possibly falsy)
current path is handed to the children as their base. -/
def flattenNodes : CNode → Option Str → List Str
  | .mk path name children, basePath =>
    let current0 : Option Str :=
      if strTruthy path then path
      else if strTruthy basePath then
        some ((basePath.getD []) ++ '\\' :: fmtOpt name)
      else name
    let current1 : Option Str :=
      if strTruthy current0 then some (normalizeTreePath (current0.getD []))
      else current0
    (if strTruthy current1 then [current1.getD []] else []) ++
      flattenNodesList children current1

def flattenNodesList : List CNode → Option Str → List Str
  | [], _ => []
  | n :: rest, basePath =>
    flattenNodes n basePath ++ flattenNodesList rest basePath
end

/-- `list_area_paths` / `list_iteration_paths`: both return the flattening
of the response tree, with no base path. -/
def listClassificationPaths (root : CNode) : List Str :=
  flattenNodes root Option.none

/-- `tag.get("name")` collection with the truthiness filter. -/
def truthyName : Option Str → Option Str
  | some s => if s ≠ [] then some s else Option.none
  | Option.none => Option.none

/-- `sorted(set(tags))`. -/
def pySortedSet (l : List Str) : List Str :=
  l.dedup.insertionSort (· ≤ ·)

/-- `list_tags`, as a function of the successive pages the continuation
loop receives: collect the truthy names, return `sorted(set(...))`. -/
def listTags (pages : List (List (Option Str))) : List Str :=
  pySortedSet (pages.flatten.filterMap truthyName)

/-- Claim C8 as the spec states it: all three listing operations return
sorted, duplicate-free lists. -/
def listingsSortedUniqueClaim : Prop :=
  (∀ pages : List (List (Option Str)),
    (listTags pages).Sorted (· ≤ ·) ∧ (listTags pages).Nodup) ∧
  (∀ root : CNode,
    (listClassificationPaths root).Sorted (· ≤ ·) ∧
    (listClassificationPaths root).Nodup)

/-- The duplicated-children tree refuting the claim for area paths. -/
def dupTree : CNode :=
  CNode.mk (some ("P".toList)) Option.none
    [CNode.mk (some ("P\\A".toList)) Option.none [],
     CNode.mk (some ("P\\A".toList)) Option.none []]

/-- C8: the claim as stated is false.  `list_tags` does return
`sorted(set(...))`, but the classification listings return the raw
pre-order traversal of `_flatten_classification_nodes`, which is neither
sorted nor deduplicated: a tree with two children of equal path yields that
path twice. -/
theorem c8_counterexample : ¬ listingsSortedUniqueClaim := by
  intro h
  have h2 := (h.2 dupTree).2
  have he : listClassificationPaths dupTree =
      ["P".toList, "P\\A".toList, "P\\A".toList] := by
    simp only [listClassificationPaths, dupTree, flattenNodes,
      flattenNodesList]
    decide
  rw [he] at h2
  exact absurd h2 (by decide)

/-- C8 (amended): `list_tags` always returns a sorted, duplicate-free list
(`sorted(set(tags))`); the area/iteration listings return the pre-order
traversal of the normalized node paths, which need not be sorted or
duplicate-free. -/
theorem c8_tags_sorted_unique :
    ∀ pages : List (List (Option Str)),
      (listTags pages).Sorted (· ≤ ·) ∧ (listTags pages).Nodup := by
  intro pages
  constructor
  · exact List.sorted_insertionSort _ _
  · exact ((List.perm_insertionSort _ _).nodup_iff).mpr
      (List.nodup_dedup _)

/-! ## Batch chunking (`AzureDevOpsClient._chunk`) -/

theorem chunk_nil {α : Type} (s : Nat) (hs : 0 < s) :
    chunk ([] : List α) s = [] := by
  unfold chunk pyRange
  have h0 : (s - 1) / s = 0 := Nat.div_eq_of_lt (by omega)
  simp [h0]

theorem chunk_cons {α : Type} (s : Nat) (hs : 0 < s) (xs : List α)
    (hne : xs ≠ []) :
    chunk xs s = xs.take s :: chunk (xs.drop s) s := by
  have hn : 1 ≤ xs.length := List.length_pos.mpr hne
  unfold chunk pyRange
  have hcount : (xs.length - 0 + s - 1) / s = (xs.length - 1) / s + 1 := by
    have h1 : xs.length - 0 + s - 1 = (xs.length - 1) + s := by omega
    rw [h1, Nat.add_div_right _ hs]
  have hcount2 : ((xs.drop s).length - 0 + s - 1) / s = (xs.length - 1) / s := by
    rw [List.length_drop]
    by_cases hcase : s ≤ xs.length
    · have h2 : xs.length - s - 0 + s - 1 = xs.length - 1 := by omega
      rw [h2]
    · have h2 : xs.length - s - 0 + s - 1 = s - 1 := by omega
      rw [h2, Nat.div_eq_of_lt (by omega), Nat.div_eq_of_lt (by omega)]
  rw [hcount2, hcount, List.range_succ_eq_map]
  simp only [List.map_cons, List.map_map]
  congr 1
  · simp
  · apply List.map_congr_left
    intro k hk
    simp only [Function.comp]
    rw [List.drop_drop]
    have h3 : 0 + Nat.succ k * s = 0 + k * s + s := by simp [Nat.succ_mul]
    rw [h3, Nat.add_comm s (0 + k * s)]

theorem chunk_flatten {α : Type} (s : Nat) (hs : 0 < s) :
    ∀ (n : Nat) (xs : List α), xs.length ≤ n → (chunk xs s).flatten = xs
  | _, [], _ => by rw [chunk_nil s hs]; rfl
  | 0, x :: rest, hlen => by simp at hlen
  | Nat.succ n, x :: rest, hlen => by
    rw [chunk_cons s hs _ (by simp)]
    simp only [List.flatten_cons]
    rw [chunk_flatten s hs n ((x :: rest).drop s)
      (by
        simp only [List.length_drop, List.length_cons]
        simp only [List.length_cons] at hlen
        omega)]
    exact List.take_append_drop s (x :: rest)

theorem chunk_count {α : Type} (xs : List α) (s : Nat) :
    (chunk xs s).length = (xs.length + s - 1) / s := by
  simp [chunk, pyRange]

theorem chunk_sizes {α : Type} (xs : List α) (s : Nat) (c : List α)
    (hc : c ∈ chunk xs s) : c.length ≤ s := by
  simp only [chunk, List.mem_map] at hc
  obtain ⟨i, hi, rfl⟩ := hc
  simp [List.length_take]

/-- C9: hydration splits the id list into consecutive batches of at most
200 ids, exactly ceil(n/200) of them, whose concatenation is the original
list; 450 ids produce batches of sizes 200, 200 and 50. -/
theorem c9_chunking :
    (∀ ids : List Int, (chunk ids 200).flatten = ids ∧
      (chunk ids 200).length = (ids.length + 199) / 200 ∧
      ∀ c ∈ chunk ids 200, c.length ≤ 200) ∧
    (chunk (List.range 450) 200).map List.length = [200, 200, 50] := by
  constructor
  · intro ids
    refine ⟨chunk_flatten 200 (by omega) ids.length ids le_rfl, ?_,
      fun c hc => chunk_sizes ids 200 c hc⟩
    rw [chunk_count]
    have h5 : ids.length + 200 - 1 = ids.length + 199 := by omega
    rw [h5]
  · have h1 : chunk (List.range 450) 200 =
        (List.range 450).take 200 :: chunk ((List.range 450).drop 200) 200 :=
      chunk_cons 200 (by omega) _ (by decide)
    have h2 : chunk ((List.range 450).drop 200) 200 =
        ((List.range 450).drop 200).take 200 ::
          chunk (((List.range 450).drop 200).drop 200) 200 :=
      chunk_cons 200 (by omega) _ (by decide)
    have h3 : chunk ((((List.range 450)).drop 200).drop 200) 200 =
        (((List.range 450).drop 200).drop 200).take 200 ::
          chunk ((((List.range 450).drop 200).drop 200).drop 200) 200 :=
      chunk_cons 200 (by omega) _ (by decide)
    have h4 : chunk (((((List.range 450)).drop 200).drop 200).drop 200) 200 =
        [] := by
      rw [show ((((List.range 450)).drop 200).drop 200).drop 200 =
        ([] : List Nat) by decide]
      exact chunk_nil 200 (by omega)
    rw [h1, h2, h3, h4]
    simp [List.length_take]

/-- Witness for C9 at the concrete 450-id input. -/
theorem c9_chunking_witness :
    (chunk (List.range 450) 200).map List.length = [200, 200, 50] :=
  c9_chunking.2

/-- C10: a `parentId` value that is present but not parseable as an integer
(for example `"abc"`) is treated exactly like null: the emitted operations
equal those for a null parentId — a removal of the existing parent relation
when one exists, and no relation addition — with no error raised. -/
theorem c10_unparseable_parentId :
    ∀ (ctx : PatchCtx) (eIdx : Option Nat) (eId : Option Int),
      buildPatchBody [("parentId", PyVal.str ("abc".toList))] ctx eIdx eId =
        buildPatchBody [("parentId", PyVal.none)] ctx eIdx eId ∧
      buildPatchBody [("parentId", PyVal.str ("abc".toList))] ctx eIdx eId =
        (match eIdx with
         | some idx => [PatchOp.remove (.relation idx)]
         | Option.none => []) := by
  intro ctx eIdx eId
  cases eIdx <;> exact ⟨rfl, rfl⟩

end AdoSpec
